import Mathlib

/-!
Shallow embedding of the interface-closure resolver, fast-ABI orderer and the
supporting classifiers of the cppwinrt generator (src/cppwinrt/helpers.h).
Metadata records (TypeDef, InterfaceImpl, MethodDef, TypeSig) are modelled as
inductive values; the recursive resolver is indexed by a fuel parameter that
bounds recursion depth (the C++ recursion terminates because metadata is
acyclic; every claim quantifies over all fuel values or picks one large
enough for the concrete input).
-/

namespace cppwinrt

/-- Global generator settings referenced by helpers.h: the fastabi toggle and
the component ignore-velocity override. Globals in the C++ source are passed
explicitly here. -/
structure Settings where
  fastabi : Bool
  component_ignore_velocity : Bool
deriving DecidableEq

mutual
/-- An interface TypeDef as the resolver sees it: namespace, name, presence of
ExclusiveToAttribute, the FeatureAttribute stage enumerator name when that
attribute is attached (none means no FeatureAttribute), the contract version
returned by get_version, the MethodList length, and the declared
InterfaceImpl rows. -/
inductive Iface : Type where
  | mk : String → String → Bool → Option String → Nat × Nat → Nat → List Edge → Iface

/-- An InterfaceImpl row: presence of DefaultAttribute, presence of
OverridableAttribute, the rendered generic argument names when the target is a
TypeSpec (none for a TypeDef or TypeRef target, in which case find_required
resolution is modelled by storing the resolved interface directly), and the
target interface. -/
inductive Edge : Type where
  | mk : Bool → Bool → Option (List String) → Iface → Edge
end

def Iface.tyNamespace : Iface → String
  | .mk ns _ _ _ _ _ _ => ns

def Iface.tyName : Iface → String
  | .mk _ n _ _ _ _ _ => n

def Iface.exclusiveAttr : Iface → Bool
  | .mk _ _ e _ _ _ _ => e

def Iface.feature : Iface → Option String
  | .mk _ _ _ f _ _ _ => f

def Iface.version : Iface → Nat × Nat
  | .mk _ _ _ _ v _ _ => v

def Iface.methodCount : Iface → Nat
  | .mk _ _ _ _ _ m _ => m

def Iface.impls : Iface → List Edge
  | .mk _ _ _ _ _ _ l => l

def Edge.hasDefaultAttr : Edge → Bool
  | .mk d _ _ _ => d

def Edge.hasOverridableAttr : Edge → Bool
  | .mk _ o _ _ => o

def Edge.genericArgs : Edge → Option (List String)
  | .mk _ _ g _ => g

def Edge.target : Edge → Iface
  | .mk _ _ _ t => t

/-- helpers.h is_always_disabled: the ignore-velocity override forces false;
otherwise absence of FeatureAttribute gives false, else the stage enumerator
is compared against AlwaysDisabled. -/
def is_always_disabled (st : Settings) (t : Iface) : Bool :=
  if st.component_ignore_velocity then false
  else
    match t.feature with
    | none => false
    | some stage => decide (stage = "AlwaysDisabled")

/-- helpers.h is_always_enabled: absence of FeatureAttribute gives true, else
the stage enumerator is compared against AlwaysEnabled. -/
def is_always_enabled (t : Iface) : Bool :=
  match t.feature with
  | none => true
  | some stage => decide (stage = "AlwaysEnabled")

/-- A runtime-class TypeDef: namespace, name, presence of FastAbiAttribute,
the declared InterfaceImpl rows, and the base class (none models the chain
root, where Extends is absent or System.Object). -/
inductive RClass : Type where
  | mk : String → String → Bool → List Edge → Option RClass → RClass

def RClass.tyNamespace : RClass → String
  | .mk ns _ _ _ _ => ns

def RClass.tyName : RClass → String
  | .mk _ n _ _ _ => n

def RClass.fastAbiAttr : RClass → Bool
  | .mk _ _ f _ _ => f

def RClass.impls : RClass → List Edge
  | .mk _ _ _ l _ => l

/-- helpers.h get_base_class, with the Extends and System.Object checks
already folded into the optional base field of the model. -/
def get_base_class : RClass → Option RClass
  | .mk _ _ _ _ b => b

/-- helpers.h get_bases: the base-chain ancestors, closest first. -/
def get_bases : RClass → List RClass
  | .mk _ _ _ _ none => []
  | .mk _ _ _ _ (some b) => b :: get_bases b

/-- helpers.h has_fastabi: the global fastabi setting AND the
FastAbiAttribute on the type. -/
def has_fastabi (st : Settings) (t : RClass) : Bool :=
  st.fastabi && t.fastAbiAttr

/-- helpers.h get_default_interface: the first InterfaceImpl row carrying
DefaultAttribute wins; if rows exist but none is default the function throws
with the namespace-dotted type name; with no rows it returns an empty
coded_index, modelled as ok none. -/
def get_default_interface (t : RClass) : Except String (Option Edge) :=
  match t.impls.find? Edge.hasDefaultAttr with
  | some impl => .ok (some impl)
  | none =>
      if !t.impls.isEmpty then
        .error ("Type " ++ t.tyNamespace ++ "." ++ t.tyName ++ " does not have a default interface")
      else .ok none

/-- helpers.h interface_info (the writer-only generic_param_stack field keeps
its source meaning: the stack of rendered generic-argument name lists). -/
structure interface_info where
  type : Iface
  is_default : Bool
  defaulted : Bool
  overridable : Bool
  base : Bool
  exclusive : Bool
  fastabi : Bool
  version : Nat × Nat
  generic_param_stack : List (List String)

abbrev get_interfaces_t := List (String × interface_info)

/-- helpers.h find: pointer to the first pair whose key equals name, or null. -/
def find : get_interfaces_t → String → Option interface_info
  | [], _ => none
  | p :: rest, name => if p.1 = name then some p.2 else find rest name

/-- helpers.h insert_or_assign: assign over the first pair matching the key,
or append a new pair at the end when the key is absent. -/
def insert_or_assign : get_interfaces_t → String → interface_info → get_interfaces_t
  | [], name, info => [(name, info)]
  | p :: rest, name, info =>
      if p.1 = name then (name, info) :: rest else p :: insert_or_assign rest name info

/-- The dedup key rendered by the writer for an InterfaceImpl target
(write_temp of the coded_index): the interface name, decorated with the bound
generic argument names for a TypeSpec target. -/
def edge_rendered_name (impl : Edge) : String :=
  match impl.genericArgs with
  | none => impl.target.tyName
  | some args => impl.target.tyName ++ "<" ++ String.intercalate (", ") args ++ ">"

/-- The info.defaulted computation of the per-edge loop:
not base AND (inherited defaulted OR the DefaultAttribute of the edge). -/
def edge_defaulted (defaulted base : Bool) (impl : Edge) : Bool :=
  !base && (defaulted || impl.hasDefaultAttr)

/-- The info.overridable computation of the per-edge loop. -/
def edge_overridable (overridable : Bool) (impl : Edge) : Bool :=
  overridable || impl.hasOverridableAttr

/-- The generic-argument stack carried into the edge: the inherited stack,
extended with the argument names for a TypeSpec target. -/
def edge_gps (gps : List (List String)) (impl : Edge) : List (List String) :=
  match impl.genericArgs with
  | some names => gps ++ [names]
  | none => gps

/-- The interface_info record assembled for an edge by
helpers.h get_interfaces_impl before insertion. -/
def edge_info (defaulted overridable base : Bool) (gps : List (List String))
    (impl : Edge) : interface_info :=
  { type := impl.target, is_default := impl.hasDefaultAttr,
    defaulted := edge_defaulted defaulted base impl,
    overridable := edge_overridable overridable impl, base := base,
    exclusive := impl.target.exclusiveAttr, fastabi := false,
    version := impl.target.version, generic_param_stack := edge_gps gps impl }

/-- The body of the per-edge loop of helpers.h get_interfaces_impl: when the
rendered name is already present and the existing entry is defaulted or the
new one is not, continue without touching the result; otherwise walk the
sub-interfaces of the target and insert-or-assign the assembled entry. The
recursive call is abstracted as the recurse argument, supplied with one fuel
unit less by get_interfaces_impl. -/
def process_edge
    (recurse : Bool → Bool → Bool → List (List String) → List Edge → get_interfaces_t → get_interfaces_t)
    (defaulted overridable base : Bool) (generic_param_stack : List (List String))
    (result : get_interfaces_t) (impl : Edge) : get_interfaces_t :=
  match find result (edge_rendered_name impl) with
  | some found =>
      if found.defaulted || !(edge_defaulted defaulted base impl) then result
      else
        insert_or_assign
          (recurse (edge_defaulted defaulted base impl) (edge_overridable overridable impl) base
            (edge_gps generic_param_stack impl) impl.target.impls result)
          (edge_rendered_name impl) (edge_info defaulted overridable base generic_param_stack impl)
  | none =>
      insert_or_assign
        (recurse (edge_defaulted defaulted base impl) (edge_overridable overridable impl) base
          (edge_gps generic_param_stack impl) impl.target.impls result)
        (edge_rendered_name impl) (edge_info defaulted overridable base generic_param_stack impl)

/-- helpers.h get_interfaces_impl: fold the per-edge body over the children,
recursing with one fuel unit less. -/
def get_interfaces_impl :
    Nat → Bool → Bool → Bool → List (List String) → List Edge → get_interfaces_t → get_interfaces_t
  | 0, _, _, _, _, _, result => result
  | Nat.succ fuel, defaulted, overridable, base, gps, children, result =>
      children.foldl
        (fun res impl => process_edge (get_interfaces_impl fuel) defaulted overridable base gps res impl)
        result

/-- Lexicographic less-than on version pairs, the std::pair operator used at
the version step of the fast-ABI comparator. -/
def verLt (x y : Nat × Nat) : Bool :=
  decide (x.1 < y.1 ∨ (x.1 = y.1 ∧ x.2 < y.2))

/-- The comparator passed to the partial sort in helpers.h get_interfaces:
non-base first, then is_default first, then non-overridable first, then
exclusive first, then always-enabled first, then ascending version, then
ascending rendered name. -/
def fastabi_less (l r : String × interface_info) : Bool :=
  if l.2.base != r.2.base then !l.2.base
  else if l.2.is_default != r.2.is_default then l.2.is_default
  else if l.2.overridable != r.2.overridable then !l.2.overridable
  else if l.2.exclusive != r.2.exclusive then l.2.exclusive
  else if is_always_enabled l.2.type != is_always_enabled r.2.type then is_always_enabled l.2.type
  else if l.2.version = r.2.version then decide (l.1 < r.1)
  else verLt l.2.version r.2.version

/-- The non-strict order induced by the comparator: a comes no later than b
when the comparator does not order b strictly before a. The sort model below
orders by this relation. -/
def fastabiLe (a b : String × interface_info) : Prop :=
  fastabi_less b a = false

instance : DecidableRel fastabiLe :=
  fun a b => inferInstanceAs (Decidable (fastabi_less b a = false))

/-- The std::for_each_n over the first count positions that sets fastabi. -/
def mark_fastabi : Nat → get_interfaces_t → get_interfaces_t
  | 0, l => l
  | _ + 1, [] => []
  | n + 1, p :: rest => (p.1, { p.2 with fastabi := true }) :: mark_fastabi n rest

/-- The predicate counted by get_interfaces to size the fast-ABI window. -/
def fastabi_window_pred (p : String × interface_info) : Bool :=
  p.2.exclusive && !p.2.base && !p.2.overridable

/-- The closure stage of helpers.h get_interfaces: walk the own declared
edges, then each base-chain ancestor with base set. -/
def get_interfaces_raw (fuel : Nat) (type : RClass) : get_interfaces_t :=
  (get_bases type).foldl
    (fun res b => get_interfaces_impl fuel false false true [] b.impls res)
    (get_interfaces_impl fuel false false false [] type.impls [])

/-- helpers.h get_interfaces. The std::partial_sort call (sort the least
count elements of the whole sequence to the front; tail order unspecified) is
modelled by a full insertion sort by the comparator followed by the fastabi
marking of the first count positions: a full sort is one valid refinement of
the partial_sort contract, and every property proved below about the first
count positions (least elements of the whole sequence, sorted) is exactly
what partial_sort guarantees. -/
def get_interfaces (fuel : Nat) (st : Settings) (type : RClass) : get_interfaces_t :=
  let result := get_interfaces_raw fuel type
  if !has_fastabi st type then result
  else
    let count := result.countP fastabi_window_pred
    mark_fastabi count (List.insertionSort fastabiLe result)

/-- The loop of helpers.h get_fastabi_size: accumulate method counts of
entries in final order, stopping at the first entry with fastabi false. -/
def fastabi_size_loop : Nat → get_interfaces_t → Nat
  | acc, [] => acc
  | acc, p :: rest =>
      if !p.2.fastabi then acc else fastabi_size_loop (acc + p.2.type.methodCount) rest

/-- helpers.h get_fastabi_size for a single type: 0 without fast layout,
otherwise 6 plus the number of base ancestors plus the loop above. -/
def get_fastabi_size (fuel : Nat) (st : Settings) (type : RClass) : Nat :=
  if !has_fastabi st type then 0
  else fastabi_size_loop (6 + (get_bases type).length) (get_interfaces fuel st type)

/-- The shapes the async detector distinguishes on the return type node: a
coded_index with its namespace-and-name, a GenericTypeInstSig with the
namespace-and-name of its generic type, or any other node (ElementType,
generic parameter, ...), which the catch-all lambda ignores. -/
inductive RetShapeT : Type where
  | codedIndex : String → String → RetShapeT
  | genericInst : String → String → RetShapeT
  | otherNode : RetShapeT
deriving DecidableEq

/-- A MethodDef as the classifier sees it: name, the SpecialName flag, and
the return type node of its signature (none when ReturnType is absent). -/
structure MethodDef where
  name : String
  specialName : Bool
  retSig : Option RetShapeT

/-- helpers.h is_put_overload: special name and a put_ name start. -/
def is_put_overload (m : MethodDef) : Bool :=
  m.specialName && m.name.startsWith ("put_")

/-- helpers.h method_signature::is_async: put overloads are async; otherwise
a method with no return type is not; otherwise the return type node decides:
Windows.Foundation IAsyncAction for a coded_index, or one of the three
Windows.Foundation generic wrappers for a GenericTypeInstSig. -/
def is_async (m : MethodDef) : Bool :=
  if is_put_overload m then true
  else
    match m.retSig with
    | none => false
    | some (.codedIndex ns nm) => decide (ns = "Windows.Foundation") && decide (nm = "IAsyncAction")
    | some (.genericInst ns nm) =>
        if ns = "Windows.Foundation" then
          decide (nm = "IAsyncOperation`1") || decide (nm = "IAsyncActionWithProgress`1") ||
            decide (nm = "IAsyncOperationWithProgress`2")
        else false
    | some .otherNode => false

/-- The winmd category of a resolved TypeDef, as returned by the metadata
library get_category(TypeDef) that helpers.h switches over. -/
inductive winmd_category : Type where
  | interface_type
  | class_type
  | enum_type
  | struct_type
  | delegate_type
deriving DecidableEq

/-- A resolved (non-interface-specific) TypeDef used by the categorizer. -/
structure TypeDefModel where
  kind : winmd_category
deriving DecidableEq

/-- helpers.h param_category. -/
inductive param_category : Type where
  | generic_type
  | object_type
  | string_type
  | enum_type
  | struct_type
  | array_type
  | fundamental_type
deriving DecidableEq

/-- The ElementType constants the categorizer branches on, with a
representative set of the primitive kinds. -/
inductive ElementType : Type where
  | Boolean | Char | I4 | U4 | I8 | U8 | R4 | R8 | StringElem | ObjectElem
deriving DecidableEq

/-- A TypeDefOrRef inside a signature: a TypeDef directly, or a TypeRef with
its namespace, name and what find_required would resolve it to (none when the
repository holds no definition for the reference). -/
inductive SigTypeRef : Type where
  | typeDef : TypeDefModel → SigTypeRef
  | typeRef : String → String → Option TypeDefModel → SigTypeRef
deriving DecidableEq

/-- The variant node of a TypeSig the categorizer dispatches over:
ElementType, coded_index, GenericTypeInstSig, or the remaining shapes
(generic parameter indices), which hit the catch-all lambda. -/
inductive TypeSigNode : Type where
  | elem : ElementType → TypeSigNode
  | ref : SigTypeRef → TypeSigNode
  | genericInst : TypeSigNode
  | genericParam : Nat → TypeSigNode
deriving DecidableEq

/-- A TypeSig: the szarray marker plus the variant node. -/
structure TypeSig where
  szarray : Bool
  node : TypeSigNode
deriving DecidableEq

/-- The switch in helpers.h get_category over the winmd category of the
resolved TypeDef. -/
def category_of_typedef (d : TypeDefModel) : param_category :=
  match d.kind with
  | .interface_type => .object_type
  | .class_type => .object_type
  | .delegate_type => .object_type
  | .struct_type => .struct_type
  | .enum_type => .enum_type

/-- helpers.h get_category on a TypeSig. find_required throwing on an
unresolvable TypeRef is modelled by the error branch; everything else is a
returned category. -/
def get_category (s : TypeSig) : Except String param_category :=
  if s.szarray then .ok .array_type
  else
    match s.node with
    | .elem e =>
        if e = .StringElem then .ok .string_type
        else if e = .ObjectElem then .ok .object_type
        else .ok .fundamental_type
    | .ref (.typeDef d) => .ok (category_of_typedef d)
    | .ref (.typeRef ns nm resolved) =>
        if ns = "System" && nm = "Guid" then .ok .struct_type
        else
          match resolved with
          | none => .error ("Type " ++ ns ++ "." ++ nm ++ " could not be found")
          | some d => .ok (category_of_typedef d)
    | .genericInst => .ok .object_type
    | .genericParam _ => .ok .generic_type

/-- Whether every TypeRef inside the signature node that the categorizer may
need to resolve is actually resolvable; references named System.Guid are
never backed by a definition in a well-formed metadata repository. -/
def sig_refs_resolve (s : TypeSig) : Bool :=
  match s.node with
  | .ref (.typeRef ns nm resolved) =>
      if ns = "System" && nm = "Guid" then resolved.isNone else resolved.isSome
  | _ => true

/-- Modelled from the spec: the seven-way categorization rules of claim C9 in
their stated order (array; String primitive; Object primitive; other
primitive; unresolvable System.Guid reference; reference resolving to an
interface, class or delegate; to a struct; to an enum; bound generic
instantiation; unbound generic parameter), written independently of the
source function for the refinement comparison. -/
def categorize_by_spec (s : TypeSig) : Except String param_category :=
  if s.szarray then .ok .array_type
  else
    match s.node with
    | .elem .StringElem => .ok .string_type
    | .elem .ObjectElem => .ok .object_type
    | .elem _ => .ok .fundamental_type
    | .ref (.typeDef d) =>
        match d.kind with
        | .interface_type => .ok .object_type
        | .class_type => .ok .object_type
        | .delegate_type => .ok .object_type
        | .struct_type => .ok .struct_type
        | .enum_type => .ok .enum_type
    | .ref (.typeRef ns nm resolved) =>
        if ns = "System" && nm = "Guid" && resolved.isNone then .ok .struct_type
        else
          match resolved with
          | some d =>
              match d.kind with
              | .interface_type => .ok .object_type
              | .class_type => .ok .object_type
              | .delegate_type => .ok .object_type
              | .struct_type => .ok .struct_type
              | .enum_type => .ok .enum_type
          | none => .error ("unresolvable reference " ++ ns ++ "." ++ nm)
    | .genericInst => .ok .object_type
    | .genericParam _ => .ok .generic_type

/-- The key tuple ordered lexicographically by the fast-ABI comparator; a
component is negated exactly when the comparator puts the true value first. -/
abbrev SortKey :=
  Lex (Bool × Lex (Bool × Lex (Bool × Lex (Bool × Lex (Bool × Lex ((Lex (Nat × Nat)) × String))))))

def sortKey (p : String × interface_info) : SortKey :=
  toLex (p.2.base,
    toLex (!p.2.is_default,
      toLex (p.2.overridable,
        toLex (!p.2.exclusive,
          toLex (!(is_always_enabled p.2.type),
            toLex (toLex p.2.version, p.1))))))

/-- Sets the fastabi flag of an entry, as the marking loop does. -/
def set_fastabi (p : String × interface_info) : String × interface_info :=
  (p.1, { p.2 with fastabi := true })

/-- Clears the fastabi flag of an entry, for comparing ordered output with
the closure stage. -/
def clear_fastabi (p : String × interface_info) : String × interface_info :=
  (p.1, { p.2 with fastabi := false })

/-- Modelled from the spec: the ordering procedure exactly as claim C1 states
it, for the refinement comparison: stable-sort only the first prefix_count
positions of the sequence (entries outside that window keep their
discovery-order positions), then mark the window fastabi. -/
def fastabi_order_claimed (entries : get_interfaces_t) : get_interfaces_t :=
  let count := entries.countP fastabi_window_pred
  mark_fastabi count (List.insertionSort fastabiLe (entries.take count) ++ entries.drop count)

/-- Settings with fastabi generation off. -/
def stOff : Settings := ⟨false, false⟩

/-- Settings with fastabi generation on. -/
def stOn : Settings := ⟨true, false⟩

/-- Fixture: exclusive interface IA, version (1,0), 2 methods, no default. -/
def ifaceIA : Iface := .mk "N" "IA" true none (1, 0) 2 []

/-- Fixture: non-exclusive interface IB, version (1,0), 4 methods. -/
def ifaceIB : Iface := .mk "N" "IB" false none (1, 0) 4 []

/-- Fixture class for the C1 counterexample: fast-ABI attributed, no base,
implementing IA (exclusive, not default) then IB (not exclusive, default). -/
def cexC1Class : RClass :=
  .mk "N" "C" true [.mk false false none ifaceIA, .mk true false none ifaceIB] none

/-- Fixture: default interface IWidget of the Widget scenario. -/
def ifaceIWidget : Iface := .mk "N" "IWidget" true none (1, 0) 1 []

/-- Fixture: default interface IControl of the base Control. -/
def ifaceIControl : Iface := .mk "N" "IControl" true none (1, 0) 1 []

/-- Fixture: base class Control directly implementing default IControl. -/
def classControl : RClass := .mk "N" "Control" false [.mk true false none ifaceIControl] none

/-- Fixture: class Widget directly implementing default IWidget, deriving
from Control. -/
def classWidget : RClass := .mk "N" "Widget" false [.mk true false none ifaceIWidget] (some classControl)

/-- Fixture interfaces for the C4 scenario: three own exclusive
non-overridable interfaces with versions (1,0), (1,2), (1,1). -/
def ifaceV10 : Iface := .mk "N" "IFirst" true none (1, 0) 3 []

def ifaceV12 : Iface := .mk "N" "ISecond" true none (1, 2) 5 []

def ifaceV11 : Iface := .mk "N" "IThird" true none (1, 1) 7 []

/-- Fixture class for the C4 scenario: fast layout enabled, no base, three
own exclusive non-overridable interfaces declared in version order
(1,0), (1,2), (1,1). -/
def cexC4Class : RClass :=
  .mk "N" "D" true
    [.mk false false none ifaceV10, .mk false false none ifaceV12, .mk false false none ifaceV11] none

/-- Fixture entry used to instantiate hypotheses of the merge-rule claims. -/
def sample_defaulted_info : interface_info :=
  { type := ifaceIA, is_default := true, defaulted := true, overridable := false,
    base := false, exclusive := true, fastabi := false, version := (1, 0),
    generic_param_stack := [] }

/-- Fixture class with interface rows but no default row, for C7. -/
def classNoDefault : RClass := .mk "M" "Plain" false [.mk false false none ifaceIA] none

/-- Fixture class with no interface rows at all, for C7. -/
def classNoImpls : RClass := .mk "M" "Empty" false [] none

/-- Fixture signature: a System.Guid reference with no backing definition. -/
def sigGuid : TypeSig := ⟨false, .ref (.typeRef "System" "Guid" none)⟩

/-- Fixture method: a setter accessor returning a plain struct reference. -/
def putMethod : MethodDef := ⟨"put_Title", true, some (.codedIndex "N" "SomeStruct")⟩

/-- Fixture method: returns IAsyncOperationWithProgress`2. -/
def progressMethod : MethodDef :=
  ⟨"DoWork", false, some (.genericInst "Windows.Foundation" "IAsyncOperationWithProgress`2")⟩

/-- Fixture method: returns a plain struct reference. -/
def structMethod : MethodDef := ⟨"GetBounds", false, some (.codedIndex "N" "SomeStruct")⟩

theorem find_insert_self (l : get_interfaces_t) (n : String) (i : interface_info) :
    find (insert_or_assign l n i) n = some i := by
  induction l with
  | nil => simp [insert_or_assign, find]
  | cons p rest ih =>
      by_cases h : p.1 = n
      · simp [insert_or_assign, h, find]
      · simp [insert_or_assign, h, find, ih]

theorem find_insert_ne (l : get_interfaces_t) (n m : String) (i : interface_info)
    (h : n ≠ m) : find (insert_or_assign l n i) m = find l m := by
  induction l with
  | nil => simp [insert_or_assign, find, h]
  | cons p rest ih =>
      by_cases hp : p.1 = n
      · simp [insert_or_assign, hp, find, h, hp ▸ h]
      · simp [insert_or_assign, hp, find, ih]

theorem insert_append_absent (l l2 : get_interfaces_t) (n : String) (i : interface_info)
    (h : find l n = none) : insert_or_assign (l ++ l2) n i = l ++ insert_or_assign l2 n i := by
  induction l with
  | nil => simp
  | cons p rest ih =>
      by_cases hp : p.1 = n
      · simp [find, hp] at h
      · simp only [find, hp, if_false] at h
        simp [insert_or_assign, hp, ih h]

theorem find_append_of_some (l l2 : get_interfaces_t) (n : String) (e : interface_info)
    (h : find l n = some e) : find (l ++ l2) n = some e := by
  induction l with
  | nil => simp [find] at h
  | cons p rest ih =>
      by_cases hp : p.1 = n
      · simp only [find, hp, if_true] at h ⊢
        simpa using h
      · simp only [find, hp, if_false] at h ⊢
        exact ih h

theorem find_eq_none_iff (l : get_interfaces_t) (n : String) :
    find l n = none ↔ n ∉ l.map Prod.fst := by
  induction l with
  | nil => simp [find]
  | cons p rest ih =>
      by_cases hp : p.1 = n
      · simp [find, hp]
      · simp [find, hp, ih, Ne.symm hp]

theorem keys_insert_found (l : get_interfaces_t) (n : String) (i e : interface_info)
    (h : find l n = some e) :
    (insert_or_assign l n i).map Prod.fst = l.map Prod.fst := by
  induction l with
  | nil => simp [find] at h
  | cons p rest ih =>
      by_cases hp : p.1 = n
      · simp [insert_or_assign, hp]
      · simp only [find, hp, if_false] at h
        simp [insert_or_assign, hp, ih h]

theorem keys_insert_absent (l : get_interfaces_t) (n : String) (i : interface_info)
    (h : find l n = none) :
    (insert_or_assign l n i).map Prod.fst = l.map Prod.fst ++ [n] := by
  induction l with
  | nil => simp [insert_or_assign]
  | cons p rest ih =>
      by_cases hp : p.1 = n
      · simp [find, hp] at h
      · simp only [find, hp, if_false] at h
        simp [insert_or_assign, hp, ih h]

theorem nodup_keys_insert (l : get_interfaces_t) (n : String) (i : interface_info)
    (h : (l.map Prod.fst).Nodup) : ((insert_or_assign l n i).map Prod.fst).Nodup := by
  cases hf : find l n with
  | some e => rw [keys_insert_found l n i e hf]; exact h
  | none =>
      rw [keys_insert_absent l n i hf]
      refine List.Nodup.append h (List.nodup_singleton n) ?_
      intro a ha hb
      simp at hb
      exact (find_eq_none_iff l n).mp hf (hb ▸ ha)

theorem mem_insert_or_assign (l : get_interfaces_t) (n : String) (i : interface_info)
    (p : String × interface_info) (h : p ∈ insert_or_assign l n i) : p ∈ l ∨ p = (n, i) := by
  induction l with
  | nil => simp [insert_or_assign] at h; simp [h]
  | cons q rest ih =>
      by_cases hq : q.1 = n
      · simp only [insert_or_assign, hq, if_true, List.mem_cons] at h
        rcases h with h | h
        · right; exact h
        · left; exact List.mem_cons_of_mem _ h
      · simp only [insert_or_assign, hq, if_false, List.mem_cons] at h
        rcases h with h | h
        · left; exact h ▸ List.mem_cons_self _ _
        · rcases ih h with h2 | h2
          · left; exact List.mem_cons_of_mem _ h2
          · right; exact h2

/-- Claim C6: is_async is true unconditionally for setter accessors
(special-name methods whose name starts with put_); otherwise it is true
exactly when the return type is Windows.Foundation.IAsyncAction or one of
the three generic wrappers IAsyncOperation, IAsyncActionWithProgress,
IAsyncOperationWithProgress from that namespace; any other return shape,
including a plain struct or an absent return type, gives false. -/
theorem c6_is_async_characterization :
    ∀ m : MethodDef,
      is_async m = true ↔
        (is_put_overload m = true ∨
          m.retSig = some (.codedIndex "Windows.Foundation" "IAsyncAction") ∨
          m.retSig = some (.genericInst "Windows.Foundation" "IAsyncOperation`1") ∨
          m.retSig = some (.genericInst "Windows.Foundation" "IAsyncActionWithProgress`1") ∨
          m.retSig = some (.genericInst "Windows.Foundation" "IAsyncOperationWithProgress`2")) := by
  intro m
  by_cases hput : is_put_overload m = true
  · simp [is_async, hput]
  · rcases hm : m.retSig with _ | r
    · simp [is_async, hput, hm]
    · cases r with
      | codedIndex ns nm =>
          simp [is_async, hput, hm]
      | genericInst ns nm =>
          by_cases hns : ns = "Windows.Foundation"
          · subst hns
            simp [is_async, hput, hm]
            tauto
          · simp [is_async, hput, hm, hns]
      | otherNode => simp [is_async, hput, hm]

/-- Claim C7: a type with interface rows none of which carries
DefaultAttribute makes get_default_interface fail with an error naming the
namespace-dotted type name, while a type with no rows at all yields an empty
reference without failing. -/
theorem c7_missing_default_interface :
    ∀ t : RClass,
      (t.impls ≠ [] → (∀ e ∈ t.impls, e.hasDefaultAttr = false) →
        get_default_interface t =
          .error ("Type " ++ t.tyNamespace ++ "." ++ t.tyName ++ " does not have a default interface"))
      ∧ (t.impls = [] → get_default_interface t = .ok none) := by
  intro t
  constructor
  · intro hne hall
    have hfind : t.impls.find? Edge.hasDefaultAttr = none := by
      apply List.find?_eq_none.mpr
      intro e he
      simp [hall e he]
    have hemp : t.impls.isEmpty = false := by
      cases h : t.impls with
      | nil => exact absurd h hne
      | cons a l => simp
    simp [get_default_interface, hfind, hemp]
  · intro he
    simp [get_default_interface, he, List.find?]

theorem c7_witness :
    get_default_interface classNoDefault =
      .error ("Type " ++ classNoDefault.tyNamespace ++ "." ++ classNoDefault.tyName ++
        " does not have a default interface")
    ∧ get_default_interface classNoImpls = .ok none := by
  constructor
  · exact (c7_missing_default_interface classNoDefault).1 (by simp [classNoDefault, RClass.impls])
      (by
        intro e he
        simp only [classNoDefault, RClass.impls, List.mem_singleton] at he
        subst he
        rfl)
  · exact (c7_missing_default_interface classNoImpls).2 rfl

/-- Claim C9: under a well-formed repository (every reference the
categorizer must resolve is resolvable, and System.Guid references are not
backed by a definition), get_category never fails and agrees with the
seven-way ordered rule list of the claim. -/
theorem c9_total_categorization :
    ∀ s : TypeSig, sig_refs_resolve s = true →
      get_category s = categorize_by_spec s ∧ ∃ c, get_category s = .ok c := by
  intro s hwf
  rcases s with ⟨sz, node⟩
  cases sz
  · cases node with
    | elem e => cases e <;> simp [get_category, categorize_by_spec]
    | ref r =>
        cases r with
        | typeDef d =>
            rcases d with ⟨k⟩
            cases k <;> simp [get_category, categorize_by_spec, category_of_typedef]
        | typeRef ns nm resolved =>
            by_cases h1 : ns = "System"
            · by_cases h2 : nm = "Guid"
              · subst h1; subst h2
                simp [sig_refs_resolve] at hwf
                have : resolved = none := by
                  cases resolved with
                  | none => rfl
                  | some d => simp [Option.isNone] at hwf
                subst this
                simp [get_category, categorize_by_spec]
              · simp only [sig_refs_resolve] at hwf
                rw [if_neg (by simp [h2])] at hwf
                rcases Option.isSome_iff_exists.mp hwf with ⟨d, hd⟩
                subst hd
                rcases d with ⟨k⟩
                cases k <;> simp [get_category, categorize_by_spec, category_of_typedef, h2]
            · simp only [sig_refs_resolve] at hwf
              rw [if_neg (by simp [h1])] at hwf
              rcases Option.isSome_iff_exists.mp hwf with ⟨d, hd⟩
              subst hd
              rcases d with ⟨k⟩
              cases k <;> simp [get_category, categorize_by_spec, category_of_typedef, h1]
    | genericInst => simp [get_category, categorize_by_spec]
    | genericParam idx => simp [get_category, categorize_by_spec]
  · simp [get_category, categorize_by_spec]

theorem c9_witness :
    sig_refs_resolve sigGuid = true ∧
      (get_category sigGuid = categorize_by_spec sigGuid ∧ ∃ c, get_category sigGuid = .ok c) :=
  ⟨rfl, c9_total_categorization sigGuid rfl⟩

/-- Claim C10: without a FeatureAttribute a type is neither always-disabled
nor not-always-enabled (enabled by default), and the global ignore-velocity
override forces is_always_disabled to false for every type. -/
theorem c10_feature_gate_defaults :
    ∀ (st : Settings) (t : Iface),
      (t.feature = none → is_always_disabled st t = false ∧ is_always_enabled t = true)
      ∧ (st.component_ignore_velocity = true → is_always_disabled st t = false) := by
  intro st t
  constructor
  · intro h
    refine ⟨?_, ?_⟩
    · unfold is_always_disabled
      split
      · rfl
      · simp [h]
    · simp [is_always_enabled, h]
  · intro h
    simp [is_always_disabled, h]

theorem foldl_preserve {α β : Type} {P : β → Prop} (f : β → α → β)
    (hstep : ∀ acc x, P acc → P (f acc x)) :
    ∀ (l : List α) (acc : β), P acc → P (l.foldl f acc) := by
  intro l
  induction l with
  | nil => intro acc h; simpa using h
  | cons x xs ih =>
      intro acc h
      simp only [List.foldl_cons]
      exact ih _ (hstep _ _ h)

theorem foldl_extends {α : Type} (f : get_interfaces_t → α → get_interfaces_t)
    (hstep : ∀ res x, ∃ ext, f res x = res ++ ext) :
    ∀ (l : List α) (res : get_interfaces_t), ∃ ext, l.foldl f res = res ++ ext := by
  intro l
  induction l with
  | nil => intro res; exact ⟨[], by simp⟩
  | cons x xs ih =>
      intro res
      rcases hstep res x with ⟨e1, h1⟩
      rcases ih (f res x) with ⟨e2, h2⟩
      refine ⟨e1 ++ e2, ?_⟩
      rw [List.foldl_cons, h2, h1, List.append_assoc]

theorem process_edge_preserves_found
    (recurse : Bool → Bool → Bool → List (List String) → List Edge → get_interfaces_t → get_interfaces_t)
    (d o b : Bool) (g : List (List String)) (result : get_interfaces_t) (impl : Edge)
    (key : String) (e : interface_info)
    (hrec : ∀ d2 o2 b2 g2 ch2 res, find res key = some e → find (recurse d2 o2 b2 g2 ch2 res) key = some e)
    (hf : find result key = some e) (hd : e.defaulted = true) :
    find (process_edge recurse d o b g result impl) key = some e := by
  unfold process_edge
  by_cases hn : edge_rendered_name impl = key
  · simp only [hn, hf]
    simp [hd, hf]
  · cases hguard : find result (edge_rendered_name impl) with
    | some f =>
        simp only [hguard]
        by_cases hb : (f.defaulted || !edge_defaulted d b impl) = true
        · simp [hb, hf]
        · rw [if_neg hb]
          rw [find_insert_ne _ _ _ _ hn]
          exact hrec _ _ _ _ _ _ hf
    | none =>
        simp only [hguard]
        rw [find_insert_ne _ _ _ _ hn]
        exact hrec _ _ _ _ _ _ hf

theorem gii_preserves_found :
    ∀ (fuel : Nat) (d o b : Bool) (g : List (List String)) (ch : List Edge)
      (result : get_interfaces_t) (key : String) (e : interface_info),
      find result key = some e → e.defaulted = true →
      find (get_interfaces_impl fuel d o b g ch result) key = some e := by
  intro fuel
  induction fuel with
  | zero => intro d o b g ch result key e hf _; simpa [get_interfaces_impl] using hf
  | succ fuel ih =>
      intro d o b g ch result key e hf hd
      simp only [get_interfaces_impl]
      refine foldl_preserve (P := fun (res : get_interfaces_t) => find res key = some e) _ ?_ ch result hf
      intro acc impl hacc
      exact process_edge_preserves_found _ d o b g acc impl key e
        (fun d2 o2 b2 g2 ch2 res hres => ih d2 o2 b2 g2 ch2 res key e hres hd) hacc hd

theorem process_edge_base_extends
    (recurse : Bool → Bool → Bool → List (List String) → List Edge → get_interfaces_t → get_interfaces_t)
    (hrec : ∀ d2 o2 g2 ch2 res, ∃ ext, recurse d2 o2 true g2 ch2 res = res ++ ext)
    (d o : Bool) (g : List (List String)) (res : get_interfaces_t) (impl : Edge) :
    ∃ ext, process_edge recurse d o true g res impl = res ++ ext := by
  unfold process_edge
  cases hguard : find res (edge_rendered_name impl) with
  | some f =>
      refine ⟨[], ?_⟩
      have hb : (f.defaulted || !edge_defaulted d true impl) = true := by
        simp [edge_defaulted]
      simp [hguard, hb]
  | none =>
      rcases hrec (edge_defaulted d true impl) (edge_overridable o impl)
        (edge_gps g impl) impl.target.impls res with ⟨e1, h1⟩
      refine ⟨insert_or_assign e1 (edge_rendered_name impl)
        (edge_info d o true g impl), ?_⟩
      simp only [hguard]
      rw [h1, insert_append_absent _ _ _ _ hguard]

theorem gii_base_extends :
    ∀ (fuel : Nat) (d o : Bool) (g : List (List String)) (ch : List Edge)
      (result : get_interfaces_t),
      ∃ ext, get_interfaces_impl fuel d o true g ch result = result ++ ext := by
  intro fuel
  induction fuel with
  | zero => intro d o g ch result; exact ⟨[], by simp [get_interfaces_impl]⟩
  | succ fuel ih =>
      intro d o g ch result
      simp only [get_interfaces_impl]
      exact foldl_extends _
        (fun res impl => process_edge_base_extends _ (fun d2 o2 g2 ch2 r => ih d2 o2 g2 ch2 r) d o g res impl)
        ch result

theorem process_edge_preserves_nodup
    (recurse : Bool → Bool → Bool → List (List String) → List Edge → get_interfaces_t → get_interfaces_t)
    (hrec : ∀ d2 o2 b2 g2 ch2 res, (res.map Prod.fst).Nodup → ((recurse d2 o2 b2 g2 ch2 res).map Prod.fst).Nodup)
    (d o b : Bool) (g : List (List String)) (res : get_interfaces_t) (impl : Edge)
    (h : (res.map Prod.fst).Nodup) :
    ((process_edge recurse d o b g res impl).map Prod.fst).Nodup := by
  unfold process_edge
  cases hguard : find res (edge_rendered_name impl) with
  | some f =>
      simp only [hguard]
      by_cases hb : (f.defaulted || !edge_defaulted d b impl) = true
      · simpa [hb] using h
      · rw [if_neg hb]
        exact nodup_keys_insert _ _ _ (hrec _ _ _ _ _ _ h)
  | none =>
      simp only [hguard]
      exact nodup_keys_insert _ _ _ (hrec _ _ _ _ _ _ h)

theorem gii_preserves_nodup :
    ∀ (fuel : Nat) (d o b : Bool) (g : List (List String)) (ch : List Edge)
      (result : get_interfaces_t),
      (result.map Prod.fst).Nodup → ((get_interfaces_impl fuel d o b g ch result).map Prod.fst).Nodup := by
  intro fuel
  induction fuel with
  | zero => intro d o b g ch result h; simpa [get_interfaces_impl] using h
  | succ fuel ih =>
      intro d o b g ch result h
      simp only [get_interfaces_impl]
      refine foldl_preserve (P := fun (res : get_interfaces_t) => (res.map Prod.fst).Nodup) _ ?_ ch result h
      intro acc impl hacc
      exact process_edge_preserves_nodup _ (fun d2 o2 b2 g2 ch2 r => ih d2 o2 b2 g2 ch2 r) d o b g acc impl hacc

theorem raw_keys_nodup (fuel : Nat) (t : RClass) :
    ((get_interfaces_raw fuel t).map Prod.fst).Nodup := by
  unfold get_interfaces_raw
  refine foldl_preserve (P := fun (res : get_interfaces_t) => (res.map Prod.fst).Nodup) _ ?_ (get_bases t) _ ?_
  · intro acc b hacc
    exact gii_preserves_nodup fuel false false true [] b.impls acc hacc
  · exact gii_preserves_nodup fuel false false false [] t.impls [] (by simp)

theorem mark_fastabi_keys : ∀ (n : Nat) (l : get_interfaces_t),
    (mark_fastabi n l).map Prod.fst = l.map Prod.fst := by
  intro n
  induction n with
  | zero => intro l; rfl
  | succ n ih =>
      intro l
      cases l with
      | nil => rfl
      | cons p rest => simp [mark_fastabi, ih]

theorem process_edge_preserves_allfalse
    (recurse : Bool → Bool → Bool → List (List String) → List Edge → get_interfaces_t → get_interfaces_t)
    (hrec : ∀ d2 o2 b2 g2 ch2 res, (∀ p ∈ res, p.2.fastabi = false) →
      ∀ p ∈ recurse d2 o2 b2 g2 ch2 res, p.2.fastabi = false)
    (d o b : Bool) (g : List (List String)) (res : get_interfaces_t) (impl : Edge)
    (h : ∀ p ∈ res, p.2.fastabi = false) :
    ∀ p ∈ process_edge recurse d o b g res impl, p.2.fastabi = false := by
  unfold process_edge
  cases hguard : find res (edge_rendered_name impl) with
  | some f =>
      simp only [hguard]
      by_cases hb : (f.defaulted || !edge_defaulted d b impl) = true
      · simpa [hb] using h
      · rw [if_neg hb]
        intro p hp
        rcases mem_insert_or_assign _ _ _ p hp with hmem | hmem
        · exact hrec _ _ _ _ _ _ h p hmem
        · rw [hmem]; rfl
  | none =>
      simp only [hguard]
      intro p hp
      rcases mem_insert_or_assign _ _ _ p hp with hmem | hmem
      · exact hrec _ _ _ _ _ _ h p hmem
      · rw [hmem]; rfl

theorem gii_preserves_allfalse :
    ∀ (fuel : Nat) (d o b : Bool) (g : List (List String)) (ch : List Edge)
      (result : get_interfaces_t),
      (∀ p ∈ result, p.2.fastabi = false) →
      ∀ p ∈ get_interfaces_impl fuel d o b g ch result, p.2.fastabi = false := by
  intro fuel
  induction fuel with
  | zero => intro d o b g ch result h; simpa [get_interfaces_impl] using h
  | succ fuel ih =>
      intro d o b g ch result h
      simp only [get_interfaces_impl]
      refine foldl_preserve (P := fun (res : get_interfaces_t) => ∀ p ∈ res, p.2.fastabi = false)
        _ ?_ ch result h
      intro acc impl hacc
      exact process_edge_preserves_allfalse _ (fun d2 o2 b2 g2 ch2 r => ih d2 o2 b2 g2 ch2 r)
        d o b g acc impl hacc

theorem raw_allfalse (fuel : Nat) (t : RClass) :
    ∀ p ∈ get_interfaces_raw fuel t, p.2.fastabi = false := by
  unfold get_interfaces_raw
  refine foldl_preserve (P := fun (res : get_interfaces_t) => ∀ p ∈ res, p.2.fastabi = false)
    _ ?_ (get_bases t) _ ?_
  · intro acc b hacc
    exact gii_preserves_allfalse fuel false false true [] b.impls acc hacc
  · exact gii_preserves_allfalse fuel false false false [] t.impls [] (by simp)

theorem map_flag_allfalse :
    ∀ (l : get_interfaces_t), (∀ p ∈ l, p.2.fastabi = false) →
      l.map (fun p => p.2.fastabi) = List.replicate l.length false := by
  intro l
  induction l with
  | nil => intro _; rfl
  | cons p rest ih =>
      intro h
      simp only [List.map_cons, List.length_cons, List.replicate_succ]
      rw [h p (List.mem_cons_self _ _), ih (fun q hq => h q (List.mem_cons_of_mem _ hq))]

theorem mark_fastabi_map_flag :
    ∀ (n : Nat) (l : get_interfaces_t), (∀ p ∈ l, p.2.fastabi = false) → n ≤ l.length →
      (mark_fastabi n l).map (fun p => p.2.fastabi)
        = List.replicate n true ++ List.replicate (l.length - n) false := by
  intro n
  induction n with
  | zero =>
      intro l hall _
      simpa [mark_fastabi] using map_flag_allfalse l hall
  | succ n ih =>
      intro l hall hle
      cases l with
      | nil => simp at hle
      | cons p rest =>
          simp only [mark_fastabi, List.map_cons, List.length_cons, List.replicate_succ,
            List.cons_append]
          have harith : rest.length + 1 - (n + 1) = rest.length - n := by omega
          rw [harith, ih rest (fun q hq => hall q (List.mem_cons_of_mem _ hq)) (by simpa using hle)]

theorem mark_fastabi_length : ∀ (n : Nat) (l : get_interfaces_t),
    (mark_fastabi n l).length = l.length := by
  intro n
  induction n with
  | zero => intro l; rfl
  | succ n ih =>
      intro l
      cases l with
      | nil => rfl
      | cons p rest => simp [mark_fastabi, ih]

theorem mark_fastabi_take : ∀ (n : Nat) (l : get_interfaces_t),
    (mark_fastabi n l).take n = (l.take n).map set_fastabi := by
  intro n
  induction n with
  | zero => intro l; rfl
  | succ n ih =>
      intro l
      cases l with
      | nil => rfl
      | cons p rest => simp [mark_fastabi, set_fastabi, ih]

theorem mark_fastabi_drop : ∀ (n : Nat) (l : get_interfaces_t),
    (mark_fastabi n l).drop n = l.drop n := by
  intro n
  induction n with
  | zero => intro l; rfl
  | succ n ih =>
      intro l
      cases l with
      | nil => rfl
      | cons p rest => simp [mark_fastabi, ih]

theorem clear_mark_head (p : String × interface_info) :
    clear_fastabi (p.1, { p.2 with fastabi := true }) = clear_fastabi p := rfl

theorem map_clear_mark : ∀ (n : Nat) (l : get_interfaces_t),
    (mark_fastabi n l).map clear_fastabi = l.map clear_fastabi := by
  intro n
  induction n with
  | zero => intro l; rfl
  | succ n ih =>
      intro l
      cases l with
      | nil => rfl
      | cons p rest => simp [mark_fastabi, ih, clear_mark_head]

theorem clear_of_false (p : String × interface_info) (h : p.2.fastabi = false) :
    clear_fastabi p = p := by
  rcases p with ⟨n, i⟩
  rcases i with ⟨ty, isd, df, ov, ba, ex, fa, ve, gp⟩
  simp only [clear_fastabi]
  simp_all

theorem map_clear_allfalse :
    ∀ (l : get_interfaces_t), (∀ p ∈ l, p.2.fastabi = false) → l.map clear_fastabi = l := by
  intro l
  induction l with
  | nil => intro _; rfl
  | cons p rest ih =>
      intro h
      simp only [List.map_cons]
      rw [clear_of_false p (h p (List.mem_cons_self _ _)),
        ih (fun q hq => h q (List.mem_cons_of_mem _ hq))]

theorem lex_step_bool (x y : Bool) (restB : Bool) (restP : Prop) [Decidable restP]
    (h : restB = decide restP) :
    (if x != y then !x else restB) = decide (x < y ∨ (x = y ∧ restP)) := by
  cases x <;> cases y <;> simp [h, Bool.lt_iff, decide_eq_decide]

theorem lex_step_bool_rev (x y : Bool) (restB : Bool) (restP : Prop) [Decidable restP]
    (h : restB = decide restP) :
    (if x != y then x else restB) = decide ((!x) < (!y) ∨ ((!x) = (!y) ∧ restP)) := by
  cases x <;> cases y <;> simp [h, Bool.lt_iff, decide_eq_decide]

theorem lex_step_pair (x y : Nat × Nat) (restB : Bool) (restP : Prop) [Decidable restP]
    (h : restB = decide restP) :
    (if x = y then restB else verLt x y)
      = decide (toLex x < toLex y ∨ (toLex x = toLex y ∧ restP)) := by
  by_cases hxy : x = y
  · subst hxy
    simp [h, decide_eq_decide]
  · have hlt : verLt x y = decide (toLex x < toLex y) := by
      simp only [verLt]
      exact decide_eq_decide.mpr (Prod.Lex.lt_iff x y).symm
    simp [hxy, hlt, toLex_inj, decide_eq_decide]

theorem fastabi_less_eq (a b : String × interface_info) :
    fastabi_less a b = decide (sortKey a < sortKey b) := by
  have h7 : (decide (a.1 < b.1) : Bool) = decide (a.1 < b.1) := rfl
  have h6 := lex_step_pair a.2.version b.2.version _ _ h7
  have h5 := lex_step_bool_rev (is_always_enabled a.2.type) (is_always_enabled b.2.type) _ _ h6
  have h4 := lex_step_bool_rev a.2.exclusive b.2.exclusive _ _ h5
  have h3 := lex_step_bool a.2.overridable b.2.overridable _ _ h4
  have h2 := lex_step_bool_rev a.2.is_default b.2.is_default _ _ h3
  have h1 := lex_step_bool a.2.base b.2.base _ _ h2
  refine h1.trans (decide_eq_decide.mpr ?_)
  simp only [sortKey, Prod.Lex.lt_iff]

theorem fastabiLe_iff (a b : String × interface_info) :
    fastabiLe a b ↔ sortKey a ≤ sortKey b := by
  unfold fastabiLe
  rw [fastabi_less_eq, decide_eq_false_iff_not]
  exact not_lt

theorem fastabiLe_total (a b : String × interface_info) : fastabiLe a b ∨ fastabiLe b a := by
  rw [fastabiLe_iff, fastabiLe_iff]
  exact le_total _ _

theorem fastabiLe_trans (a b c : String × interface_info) :
    fastabiLe a b → fastabiLe b c → fastabiLe a c := by
  rw [fastabiLe_iff, fastabiLe_iff, fastabiLe_iff]
  exact le_trans

/-- Claim C2: when a rendered name is already a key in the result and the
existing entry is defaulted or the newly computed defaulted flag is false,
the per-edge body returns the result unchanged for every possible recursion
(so the sub-interfaces are not walked and the entry is not overwritten); and
once an entry is defaulted, no later merge in the resolution run replaces
it. -/
theorem c2_merge_rule_monotone :
    (∀ (recurse : Bool → Bool → Bool → List (List String) → List Edge → get_interfaces_t → get_interfaces_t)
       (d o b : Bool) (g : List (List String)) (result : get_interfaces_t) (impl : Edge)
       (e : interface_info),
        find result (edge_rendered_name impl) = some e →
        (e.defaulted = true ∨ edge_defaulted d b impl = false) →
        process_edge recurse d o b g result impl = result)
    ∧ (∀ (fuel : Nat) (d o b : Bool) (g : List (List String)) (ch : List Edge)
        (result : get_interfaces_t) (key : String) (e : interface_info),
        find result key = some e → e.defaulted = true →
        find (get_interfaces_impl fuel d o b g ch result) key = some e) := by
  constructor
  · intro recurse d o b g result impl e hf hcond
    unfold process_edge
    simp only [hf]
    have hskip : (e.defaulted || !edge_defaulted d b impl) = true := by
      rcases hcond with h | h
      · simp [h]
      · simp [h]
    simp [hskip]
  · intro fuel d o b g ch result key e hf hd
    exact gii_preserves_found fuel d o b g ch result key e hf hd

theorem c2_witness :
    process_edge (fun _ _ _ _ _ r => r) false false false []
        [("IA", sample_defaulted_info)] (.mk false false none ifaceIA)
      = [("IA", sample_defaulted_info)]
    ∧ find (get_interfaces_impl 1 false false false [] [.mk false false none ifaceIA]
        [("IA", sample_defaulted_info)]) "IA" = some sample_defaulted_info :=
  ⟨c2_merge_rule_monotone.1 (fun _ _ _ _ _ r => r) false false false []
      [("IA", sample_defaulted_info)] (.mk false false none ifaceIA) sample_defaulted_info
      rfl (Or.inl rfl),
   c2_merge_rule_monotone.2 1 false false false [] [.mk false false none ifaceIA]
      [("IA", sample_defaulted_info)] "IA" sample_defaulted_info rfl rfl⟩

/-- Claim C5: a base-chain walk (base flag set) can only append to the
result: every key inserted during the own-edge walk keeps its exact entry
and position, so a base-sourced rediscovery never overwrites or modifies an
existing entry. -/
theorem c5_base_walk_appends :
    (∀ (fuel : Nat) (d o : Bool) (g : List (List String)) (ch : List Edge)
       (result : get_interfaces_t),
        ∃ ext, get_interfaces_impl fuel d o true g ch result = result ++ ext)
    ∧ (∀ (fuel : Nat) (t : RClass),
        ∃ ext, get_interfaces_raw fuel t =
          get_interfaces_impl fuel false false false [] t.impls [] ++ ext) := by
  constructor
  · intro fuel d o g ch result
    exact gii_base_extends fuel d o g ch result
  · intro fuel t
    unfold get_interfaces_raw
    exact foldl_extends _ (fun res b => gii_base_extends fuel false false [] b.impls res)
      (get_bases t) _

/-- Claim C8: resolution never produces a duplicate rendered-name key:
every insertion assigns over an existing key and appends only when the key
is absent, so the key sequence of get_interfaces is duplicate-free. -/
theorem c8_no_duplicate_keys :
    ∀ (fuel : Nat) (st : Settings) (t : RClass),
      ((get_interfaces fuel st t).map Prod.fst).Nodup := by
  intro fuel st t
  have hraw := raw_keys_nodup fuel t
  unfold get_interfaces
  cases h : has_fastabi st t with
  | false => simpa [h] using hraw
  | true =>
      simp only [h, Bool.not_true, Bool.false_eq_true, if_false]
      rw [mark_fastabi_keys]
      exact (((List.perm_insertionSort fastabiLe (get_interfaces_raw fuel t)).map Prod.fst).nodup_iff).mpr hraw

theorem fastabi_size_loop_eq :
    ∀ (l : get_interfaces_t) (acc : Nat),
      fastabi_size_loop acc l =
        acc + ((l.takeWhile (fun p => p.2.fastabi)).map (fun p => p.2.type.methodCount)).sum := by
  intro l
  induction l with
  | nil => intro acc; simp [fastabi_size_loop]
  | cons p rest ih =>
      intro acc
      by_cases hp : p.2.fastabi = true
      · simp [fastabi_size_loop, hp, List.takeWhile_cons, ih]
        omega
      · have hp2 : p.2.fastabi = false := by
          cases h : p.2.fastabi
          · rfl
          · exact absurd h hp
        simp [fastabi_size_loop, hp2, List.takeWhile_cons]

/-- Claim C3: the defaulted flag recorded for every edge walked during
resolution equals not-base AND (inherited-defaulted OR the DefaultAttribute
of the edge); and resolving the Widget scenario (Widget implements default
IWidget, base Control implements default IControl) yields exactly the two
entries IWidget (defaulted, not base) and IControl (not defaulted, base). -/
theorem c3_defaulted_formula_and_widget :
    (∀ (recurse : Bool → Bool → Bool → List (List String) → List Edge → get_interfaces_t → get_interfaces_t)
       (d o b : Bool) (g : List (List String)) (result : get_interfaces_t) (impl : Edge),
        find result (edge_rendered_name impl) = none →
        ∃ info, find (process_edge recurse d o b g result impl) (edge_rendered_name impl) = some info
          ∧ info.defaulted = (!b && (d || impl.hasDefaultAttr))
          ∧ info.base = b
          ∧ info.is_default = impl.hasDefaultAttr)
    ∧ (get_interfaces 5 stOff classWidget).map (fun p => (p.1, p.2.defaulted, p.2.base))
        = [("IWidget", true, false), ("IControl", false, true)] := by
  constructor
  · intro recurse d o b g result impl hguard
    unfold process_edge
    simp only [hguard]
    exact ⟨edge_info d o b g impl, find_insert_self _ _ _, rfl, rfl, rfl⟩
  · decide

theorem c3_witness :
    find [] (edge_rendered_name (.mk true false none ifaceIWidget)) = none
    ∧ ∃ info,
        find (process_edge (fun _ _ _ _ _ r => r) false false false [] []
            (.mk true false none ifaceIWidget))
          (edge_rendered_name (.mk true false none ifaceIWidget)) = some info
        ∧ info.defaulted = (!false && (false || (Edge.mk true false none ifaceIWidget).hasDefaultAttr))
        ∧ info.base = false
        ∧ info.is_default = (Edge.mk true false none ifaceIWidget).hasDefaultAttr :=
  ⟨rfl, c3_defaulted_formula_and_widget.1 (fun _ _ _ _ _ r => r) false false false [] []
      (.mk true false none ifaceIWidget) rfl⟩

/-- Claim C4: with fast layout enabled the slot count is 6 plus the number
of base ancestors plus the method counts of the entries taken in final order
while fastabi holds, stopping at the first non-fastabi entry; and in the
scenario of a class with no base and three own exclusive non-overridable
interfaces of versions (1,0), (1,2), (1,1), the prefix has length 3 in
ascending version order and the slot count is 6 + 0 + the sum of the three
method counts. -/
theorem c4_fastabi_size :
    (∀ (fuel : Nat) (st : Settings) (t : RClass), has_fastabi st t = true →
        get_fastabi_size fuel st t =
          6 + (get_bases t).length +
            (((get_interfaces fuel st t).takeWhile (fun p => p.2.fastabi)).map
              (fun p => p.2.type.methodCount)).sum)
    ∧ (get_interfaces 5 stOn cexC4Class).map (fun p => (p.1, p.2.fastabi, p.2.version))
        = [("IFirst", true, (1, 0)), ("IThird", true, (1, 1)), ("ISecond", true, (1, 2))]
    ∧ get_fastabi_size 5 stOn cexC4Class = 6 + 0 + (3 + 7 + 5) := by
  refine ⟨?_, by decide, by decide⟩
  intro fuel st t h
  unfold get_fastabi_size
  simp only [h, Bool.not_true, Bool.false_eq_true, if_false]
  rw [fastabi_size_loop_eq]

theorem c4_witness :
    has_fastabi stOn cexC4Class = true
    ∧ get_fastabi_size 5 stOn cexC4Class =
        6 + (get_bases cexC4Class).length +
          (((get_interfaces 5 stOn cexC4Class).takeWhile (fun p => p.2.fastabi)).map
            (fun p => p.2.type.methodCount)).sum :=
  ⟨rfl, c4_fastabi_size.1 5 stOn cexC4Class rfl⟩

/-- Claim C1 counterexample: for the fast-ABI class implementing IA
(exclusive, not default) then IB (not exclusive, default), prefix_count is 1,
and the code moves IB, the least entry of the whole sequence under the
comparator, into the window (fastabi true) while IA is pushed out of its
discovery position; the procedure stated by the claim (stable-sort only the
first prefix_count positions, the tail keeping discovery order) instead
leaves IA first and marked. The two outputs differ. -/
theorem c1_counterexample :
    (get_interfaces 5 stOn cexC1Class).map (fun p => (p.1, p.2.fastabi))
        = [("IB", true), ("IA", false)]
    ∧ (fastabi_order_claimed (get_interfaces_raw 5 cexC1Class)).map (fun p => (p.1, p.2.fastabi))
        = [("IA", true), ("IB", false)]
    ∧ get_interfaces 5 stOn cexC1Class ≠ fastabi_order_claimed (get_interfaces_raw 5 cexC1Class) := by
  have h1 : (get_interfaces 5 stOn cexC1Class).map (fun p => (p.1, p.2.fastabi))
      = [("IB", true), ("IA", false)] := by decide
  have h2 : (fastabi_order_claimed (get_interfaces_raw 5 cexC1Class)).map (fun p => (p.1, p.2.fastabi))
      = [("IA", true), ("IB", false)] := by decide
  refine ⟨h1, h2, fun hcontra => ?_⟩
  rw [hcontra, h2] at h1
  exact absurd h1 (by decide)

/-- Claim C1 (amended): with fast layout enabled, prefix_count counts the
entries that are exclusive, own and non-overridable; the orderer partial-sorts
the whole sequence by the priority comparator, so the first prefix_count
positions hold least entries of the entire sequence in comparator order and
are exactly the entries marked fastabi true; the output is a permutation of
the closure result up to the fastabi flags, the window is sorted, and every
window entry precedes every tail entry in comparator order. Entries outside
the window need not keep their discovery positions. -/
theorem c1_fastabi_window (fuel : Nat) (st : Settings) (t : RClass)
    (h : has_fastabi st t = true) :
    (get_interfaces fuel st t).length = (get_interfaces_raw fuel t).length
    ∧ (get_interfaces fuel st t).map (fun p => p.2.fastabi)
        = List.replicate ((get_interfaces_raw fuel t).countP fastabi_window_pred) true
          ++ List.replicate ((get_interfaces_raw fuel t).length
              - (get_interfaces_raw fuel t).countP fastabi_window_pred) false
    ∧ List.Perm ((get_interfaces fuel st t).map clear_fastabi) (get_interfaces_raw fuel t)
    ∧ List.Pairwise fastabiLe
        ((get_interfaces fuel st t).take ((get_interfaces_raw fuel t).countP fastabi_window_pred))
    ∧ (∀ x ∈ (get_interfaces fuel st t).take
          ((get_interfaces_raw fuel t).countP fastabi_window_pred),
        ∀ y ∈ (get_interfaces fuel st t).drop
          ((get_interfaces_raw fuel t).countP fastabi_window_pred),
        fastabiLe x y) := by
  have hr : get_interfaces fuel st t
      = mark_fastabi ((get_interfaces_raw fuel t).countP fastabi_window_pred)
          (List.insertionSort fastabiLe (get_interfaces_raw fuel t)) := by
    unfold get_interfaces
    simp [h]
  have hallfalse := raw_allfalse fuel t
  have hsortall : ∀ p ∈ List.insertionSort fastabiLe (get_interfaces_raw fuel t),
      p.2.fastabi = false := by
    intro p hp
    exact hallfalse p ((List.mem_insertionSort fastabiLe).mp hp)
  have hlen := List.length_insertionSort fastabiLe (get_interfaces_raw fuel t)
  have hcount : (get_interfaces_raw fuel t).countP fastabi_window_pred
      ≤ (get_interfaces_raw fuel t).length := List.countP_le_length _
  haveI : IsTotal (String × interface_info) fastabiLe := ⟨fastabiLe_total⟩
  haveI : IsTrans (String × interface_info) fastabiLe := ⟨fastabiLe_trans⟩
  have hsorted := List.sorted_insertionSort fastabiLe (get_interfaces_raw fuel t)
  refine ⟨?_, ?_, ?_, ?_, ?_⟩
  · rw [hr, mark_fastabi_length, hlen]
  · rw [hr, mark_fastabi_map_flag _ _ hsortall (by rw [hlen]; exact hcount), hlen]
  · rw [hr, map_clear_mark, map_clear_allfalse _ hsortall]
    exact List.perm_insertionSort fastabiLe (get_interfaces_raw fuel t)
  · rw [hr, mark_fastabi_take]
    refine List.pairwise_map.mpr ?_
    exact (hsorted.take).imp (fun hab => hab)
  · intro x hx y hy
    rw [hr, mark_fastabi_take] at hx
    rw [hr, mark_fastabi_drop] at hy
    rcases List.mem_map.mp hx with ⟨x2, hx2, rfl⟩
    have hrel : fastabiLe x2 y := List.Pairwise.rel_of_mem_take_of_mem_drop hsorted hx2 hy
    exact hrel

theorem c1_witness :
    (get_interfaces 5 stOn cexC1Class).length = (get_interfaces_raw 5 cexC1Class).length
    ∧ (get_interfaces 5 stOn cexC1Class).map (fun p => p.2.fastabi)
        = List.replicate ((get_interfaces_raw 5 cexC1Class).countP fastabi_window_pred) true
          ++ List.replicate ((get_interfaces_raw 5 cexC1Class).length
              - (get_interfaces_raw 5 cexC1Class).countP fastabi_window_pred) false
    ∧ List.Perm ((get_interfaces 5 stOn cexC1Class).map clear_fastabi) (get_interfaces_raw 5 cexC1Class)
    ∧ List.Pairwise fastabiLe
        ((get_interfaces 5 stOn cexC1Class).take ((get_interfaces_raw 5 cexC1Class).countP fastabi_window_pred))
    ∧ (∀ x ∈ (get_interfaces 5 stOn cexC1Class).take
          ((get_interfaces_raw 5 cexC1Class).countP fastabi_window_pred),
        ∀ y ∈ (get_interfaces 5 stOn cexC1Class).drop
          ((get_interfaces_raw 5 cexC1Class).countP fastabi_window_pred),
        fastabiLe x y) :=
  c1_fastabi_window 5 stOn cexC1Class rfl

theorem c10_witness :
    (is_always_disabled stOff ifaceIA = false ∧ is_always_enabled ifaceIA = true)
    ∧ is_always_disabled ⟨false, true⟩ ifaceIA = false :=
  ⟨(c10_feature_gate_defaults stOff ifaceIA).1 rfl,
   (c10_feature_gate_defaults ⟨false, true⟩ ifaceIA).2 rfl⟩

end cppwinrt
